import Mathlib

/-!
# Verification of the hackrx document-processing service

This file gives a shallow embedding, in Lean, of the three Python source files
of the service and proves (or refutes) the specified properties against it.

* `HackRX.Coordinator` embeds `src/handlers/hackrx.py`: the content-addressed
  deduplicating coordinator (metadata ledger, Redis work events, result waiter).
* `HackRX.Pipeline` embeds `src/handler/hackrx.py` together with
  `src/ml_model/run.py`: the direct question-answering handler and its
  parallel per-question processing.

External effects (Redis delivery, the filesystem, HTTP downloads, the
LLM pipeline) are modelled as explicit inputs: the durable content of
`meta.json` is a `StoredMeta` value, the pub/sub traffic seen by a waiter is a
`List BusMessage`, filesystem moves and lock operations are recorded in an
action trace, and the per-question pipeline is a function parameter.
-/

namespace HackRX

/-- Lookup in an association list, first binding wins - the observable
behaviour of a Python `dict` read (`d[k]` / `k in d`). -/
def pyGet {β : Type} : List (String × β) → String → Option β
  | [], _ => none
  | (k', v) :: rest, k => if k' = k then some v else pyGet rest k

/-- Python `dict` write `d[k] = v`: an existing key keeps its position and
gets the new value, a new key is appended at the end. -/
def pyInsert {β : Type} : List (String × β) → String → β → List (String × β)
  | [], k, v => [(k, v)]
  | (k', v') :: rest, k, v =>
    if k' = k then (k, v) :: rest else (k', v') :: pyInsert rest k v

/-- First binding for a key occurring as the second component of a pair -
the lookup view of a dict built from `(value, key)` pairs. -/
def lookupSnd : List (Nat × String) → String → Option Nat
  | [], _ => none
  | (i, q) :: rest, k => if q = k then some i else lookupSnd rest k

/-- Decimal value of a digit character. -/
def d2n (c : Char) : Nat := c.toNat - 48

/-- Value denoted by a list of digit characters, most significant first,
starting from accumulator `a`. -/
def chVal (a : Nat) (l : List Char) : Nat := l.foldl (fun x c => x * 10 + d2n c) a

/-- Characters that can occur in the decimal rendering of an integer:
digits and the minus sign. -/
def numCh (c : Char) : Bool := c.isDigit || c == '-'

namespace Coordinator

/-- One value of the `files_by_hash` map in `meta.json`:
`{"generic_filename": <string>}`. -/
structure FileEntry where
  generic_filename : String
deriving DecidableEq, Repr

/-- The parsed JSON object stored in `meta.json`.  Either key may be absent
(legacy shapes); `get_or_create_metadata` reinitialises when `files_by_hash`
is missing, and `run_hackrx` reads `next_id` with default 1. -/
structure RawMeta where
  files_by_hash : Option (List (String × FileEntry))
  next_id : Option Int
deriving DecidableEq, Repr

/-- The durable state of the `meta.json` file: absent
(`FileNotFoundError`), unparsable (`json.JSONDecodeError`), or a parsed
JSON object. -/
inductive StoredMeta where
  | missing
  | corrupt
  | stored (m : RawMeta)
deriving DecidableEq, Repr

/-- The freshly initialised ledger `{"files_by_hash": {}, "next_id": 1}`. -/
def freshMeta : RawMeta := { files_by_hash := some [], next_id := some 1 }

/-- `get_or_create_metadata(downloads_dir)`: read and parse `meta.json`;
on a missing file or a parse error return a fresh ledger; a parsed object
lacking the `files_by_hash` key is discarded and reinitialised. -/
def get_or_create_metadata : StoredMeta → RawMeta
  | .missing => freshMeta
  | .corrupt => freshMeta
  | .stored m => if m.files_by_hash.isSome then m else freshMeta

/-- `save_metadata(downloads_dir, metadata)`: `json.dump` of the ledger;
the durable state afterwards parses back to the written object. -/
def save_metadata (metadata : RawMeta) : StoredMeta := .stored metadata

/-- The relevant fields of a decoded pub/sub payload, each read with
`dict.get` and hence optional. -/
structure EventPayload where
  event_type : Option String
  filehash : Option String
  answers : Option (List String)
deriving DecidableEq, Repr

/-- The body of one message delivered by `pubsub.listen()`: either a payload
that `json.loads` decodes, or data the `try`-block fails on. -/
inductive MsgData where
  | malformed
  | payload (p : EventPayload)
deriving DecidableEq, Repr

/-- One message delivered by `pubsub.listen()`.  `mtype` is
`message["type"]` (subscription confirmations are not `"message"`);
`arrival` is the value of `time.time() - start_time` at the moment the
message is handled. -/
structure BusMessage where
  mtype : String
  arrival : Nat
  data : MsgData
deriving DecidableEq, Repr

/-- How a call to `wait_for_result` ends: a matching result event is
returned, the `HTTPException(504)` is raised, or - when the stream never
yields another message - the call never returns. -/
inductive WaitOutcome where
  | found (p : EventPayload)
  | timedOut
  | blocked
deriving DecidableEq, Repr

/-- `wait_for_result(file_hash, timeout)`: iterate over `pubsub.listen()`;
skip non-`"message"` items (without reaching the clock check); return the
first payload with `event_type == "result"` and a matching `filehash`;
otherwise raise the 504 timeout when the elapsed time exceeds `timeout`.
An exhausted stream means `listen()` blocks forever. -/
def wait_for_result (file_hash : String) (timeout : Nat) : List BusMessage → WaitOutcome
  | [] => .blocked
  | msg :: rest =>
    if msg.mtype ≠ "message" then wait_for_result file_hash timeout rest
    else
      match msg.data with
      | .malformed =>
        if msg.arrival > timeout then .timedOut else wait_for_result file_hash timeout rest
      | .payload p =>
        if p.event_type = some "result" ∧ p.filehash = some file_hash then .found p
        else if msg.arrival > timeout then .timedOut
        else wait_for_result file_hash timeout rest

/-- A message that `wait_for_result file_hash` accepts. -/
def isMatch (file_hash : String) (msg : BusMessage) : Bool :=
  msg.mtype == "message" &&
    match msg.data with
    | .malformed => false
    | .payload p => p.event_type == some "result" && p.filehash == some file_hash

/-- The event dict published by `publish_file_event`. -/
structure FileEvent where
  event_type : String
  filehash : String
  filepath : String
deriving DecidableEq, Repr

/-- Steps of one `run_hackrx` request that touch shared state, in program
order: the `file_lock` critical section, ledger I/O, the temp-file cleanup
or move, the Redis publish and the start of the result wait. -/
inductive Action where
  | acquire
  | release
  | loadMeta
  | cleanupTemp
  | publishEvent (event_type filehash filepath : String)
  | waitStart (filehash : String)
  | moveFile (filename : String)
  | saveMeta
deriving DecidableEq, Repr

/-- What the HTTP caller of `POST /hackrx/run` observes. -/
inductive HttpResult where
  | ok (answers : List String)
  | httpError (statusCode : Nat) (detail : String)
  | neverReturns
deriving DecidableEq, Repr

/-- Result of one embedded `run_hackrx` request: the HTTP outcome, the
durable `meta.json` state afterwards, the events published to Redis, and
the action trace. -/
structure RunResult where
  http : HttpResult
  finalStored : StoredMeta
  events : List FileEvent
  trace : List Action
deriving DecidableEq, Repr

/-- `os.path.join(dir, name)` for a directory path without trailing slash. -/
def pathJoin (dir name : String) : String := dir ++ "/" ++ name

/-- Python `extension or '.pdf'`: the empty string is falsy. -/
def extOrPdf (extension : String) : String := if extension = "" then ".pdf" else extension

/-- The f-string `f"document{next_id}{extension or '.pdf'}"`. -/
def mkFilename (next_id : Int) (extension : String) : String :=
  "document" ++ toString next_id ++ extOrPdf extension

/-- Detail of the 504 raised by `wait_for_result`. -/
def timeoutDetail : String := "Timed out waiting for external file result."

/-- `str(e)` for a FastAPI `HTTPException`: `"<status_code>: <detail>"`. -/
def excMessage (code : Nat) (detail : String) : String := toString code ++ ": " ++ detail

/-- Detail built by the blanket `except Exception` handler of `run_hackrx`. -/
def internalErrorDetail (e : String) : String := "An internal error occurred: " ++ e

/-- The duplicate branch of `run_hackrx` (step 3): the hash is already in
`files_by_hash`.  Still inside `with file_lock:`, the temp file is removed,
the work event for the existing canonical path is published and the result
is awaited; the ledger is neither mutated nor saved.  A raised
`HTTPException` escapes the `with` block (releasing the lock) and is caught
by `except Exception`, which re-raises it as a 500. -/
def duplicate_path (file_hash downloads_dir : String) (entry : FileEntry)
    (stored : StoredMeta) (stream : List BusMessage) : RunResult :=
  let existing_filepath := pathJoin downloads_dir entry.generic_filename
  let ev : FileEvent := ⟨"run_hackrx", file_hash, existing_filepath⟩
  let tr : List Action := [.acquire, .loadMeta, .cleanupTemp,
    .publishEvent "run_hackrx" file_hash existing_filepath, .waitStart file_hash]
  match wait_for_result file_hash 30 stream with
  | .found p =>
    { http := .ok (p.answers.getD []), finalStored := stored, events := [ev],
      trace := tr ++ [.release] }
  | .timedOut =>
    { http := .httpError 500 (internalErrorDetail (excMessage 504 timeoutDetail)),
      finalStored := stored, events := [ev], trace := tr ++ [.release] }
  | .blocked =>
    { http := .neverReturns, finalStored := stored, events := [ev], trace := tr }

/-- The new-file branch of `run_hackrx` (step 4): allocate
`next_id`, move the temp file to `document<next_id><ext>`, record the hash
mapping, bump `next_id`, save the ledger; then - after the `with` block
ends - publish the work event and await the result. -/
def new_file_path (file_hash extension downloads_dir : String)
    (metadata : RawMeta) (stream : List BusMessage) : RunResult :=
  let fbh := metadata.files_by_hash.getD []
  let next_id := metadata.next_id.getD 1
  let new_generic_filename := mkFilename next_id extension
  let final_filepath := pathJoin downloads_dir new_generic_filename
  let newMeta : RawMeta :=
    { files_by_hash := some (pyInsert fbh file_hash ⟨new_generic_filename⟩),
      next_id := some (next_id + 1) }
  let ev : FileEvent := ⟨"run_hackrx", file_hash, final_filepath⟩
  let tr : List Action := [.acquire, .loadMeta, .moveFile new_generic_filename,
    .saveMeta, .release, .publishEvent "run_hackrx" file_hash final_filepath,
    .waitStart file_hash]
  match wait_for_result file_hash 30 stream with
  | .found p =>
    { http := .ok (p.answers.getD []), finalStored := save_metadata newMeta,
      events := [ev], trace := tr }
  | .timedOut =>
    { http := .httpError 500 (internalErrorDetail (excMessage 504 timeoutDetail)),
      finalStored := save_metadata newMeta, events := [ev], trace := tr }
  | .blocked =>
    { http := .neverReturns, finalStored := save_metadata newMeta,
      events := [ev], trace := tr }

/-- `run_hackrx` after a successful download: `file_hash` is the SHA-256 of
the downloaded bytes and `extension` the value `determine_file_extension`
returned for the response.  The durable ledger state and the pub/sub
traffic are explicit inputs. -/
def run_hackrx (file_hash extension downloads_dir : String)
    (stored : StoredMeta) (stream : List BusMessage) : RunResult :=
  let metadata := get_or_create_metadata stored
  let fbh := metadata.files_by_hash.getD []
  match pyGet fbh file_hash with
  | some entry => duplicate_path file_hash downloads_dir entry stored stream
  | none => new_file_path file_hash extension downloads_dir metadata stream

/-- Scan a trace with the current `file_lock` depth, reporting whether any
publish or result-wait happens while the lock is held. -/
def anyBusActionLocked : List Action → Nat → Bool
  | [], _ => false
  | a :: rest, depth =>
    match a with
    | .acquire => anyBusActionLocked rest (depth + 1)
    | .release => anyBusActionLocked rest (depth - 1)
    | .publishEvent _ _ _ => depth != 0 || anyBusActionLocked rest depth
    | .waitStart _ => depth != 0 || anyBusActionLocked rest depth
    | _ => anyBusActionLocked rest depth

/-- Whether a request trace ever publishes or waits inside the critical
section. -/
def publishOrWaitWhileLocked (tr : List Action) : Bool := anyBusActionLocked tr 0

/-- The ledger counter as the next ingestion would read it:
`metadata.get("next_id", 1)` after `get_or_create_metadata`. -/
def nextIdOf (st : StoredMeta) : Int := (get_or_create_metadata st).next_id.getD 1

/-- The hash map as the next ingestion would read it. -/
def fbhOf (st : StoredMeta) : List (String × FileEntry) :=
  (get_or_create_metadata st).files_by_hash.getD []

/-- Filenames a request moved into the store, read off its trace. -/
def savedFiles (tr : List Action) : List String :=
  tr.filterMap (fun a => match a with | .moveFile f => some f | _ => none)

/-- A serialized sequence of requests: each `(hash, extension)` pair runs
`run_hackrx` to completion against the durable state the previous one left
(the wait outcome does not affect the ledger, so the stream is empty).
Returns the final durable state and all filenames created. -/
def runSeq (downloads_dir : String) : StoredMeta → List (String × String) →
    StoredMeta × List String
  | stored, [] => (stored, [])
  | stored, (h, ext) :: rest =>
    let res := run_hackrx h ext downloads_dir stored []
    let next := runSeq downloads_dir res.finalStored rest
    (next.1, savedFiles res.trace ++ next.2)

/-- The filenames a run of consecutive ids produces. -/
def idsFrom (id : Int) : List (String × String) → List String
  | [] => []
  | (_, ext) :: rest => mkFilename id ext :: idsFrom (id + 1) rest

/-- An extension as `determine_file_extension` can produce it: empty, or
starting with a dot (all three extraction methods yield `os.path.splitext`
extensions or map values beginning with a dot). -/
def extDotOk (extension : String) : Prop :=
  extension = "" ∨ extension.data.head? = some '.'

end Coordinator

namespace Pipeline

/-- The dict built for one question by `process_single_question` (or by the
`as_completed` exception handler): only the keys `get_answers_from_file`
reads are modelled, each with `dict.get` optionality except the always
present `question` and `status`. -/
structure QResult where
  question : String
  status : String
  generated_answer : Option String
  error : Option String
deriving DecidableEq, Repr

/-- How the enhance/retrieve/generate pipeline behaves on one question:
it returns a generated answer or raises. -/
inductive PipeOutcome where
  | success (generated_answer : String)
  | raised (e : String)
deriving DecidableEq, Repr

/-- `process_single_question(user_query)`: run the pipeline inside
`try`/`except`, producing a `"success"` dict with the generated answer or
an `"error"` dict with the exception text. -/
def process_single_question (pipeline : String → PipeOutcome) (user_query : String) : QResult :=
  match pipeline user_query with
  | .success ans =>
    { question := user_query, status := "success", generated_answer := some ans, error := none }
  | .raised e =>
    { question := user_query, status := "error", generated_answer := none, error := some e }

/-- The result collected for one question in the `as_completed` loop:
`future.result(timeout=30)` either returns the `process_single_question`
dict or raises, in which case the loop builds the
`"Processing failed: ..."` error dict for that question. -/
def collect_result (pipeline : String → PipeOutcome) (futureExc : String → Option String)
    (question : String) : QResult :=
  match futureExc question with
  | some e =>
    { question := question, status := "error", generated_answer := none,
      error := some ("Processing failed: " ++ e) }
  | none => process_single_question pipeline question

/-- `question_to_index = {q: i for i, q in enumerate(questions)}`. -/
def question_to_index (questions : List String) : List (String × Nat) :=
  questions.enum.foldl (fun m p => HackRX.pyInsert m p.2 p.1) []

/-- The sort key `question_to_index.get(x.get("question", ""), len(questions))`. -/
def sortKey (questions : List String) (x : QResult) : Nat :=
  (HackRX.pyGet (question_to_index questions) x.question).getD questions.length

/-- `process_questions_parallel(questions)`: empty input short-circuits;
otherwise the results arrive in completion order (`completed`, a
permutation of one collected result per question) and are stably sorted by
original question index. -/
def process_questions_parallel (questions : List String) (completed : List QResult) :
    List QResult :=
  if questions.isEmpty then []
  else completed.mergeSort (fun a b => sortKey questions a ≤ sortKey questions b)

/-- The answer string extracted per result: the generated answer on
success, the `"Error: ..."` placeholder otherwise. -/
def answerString (result : QResult) : String :=
  if result.status = "success" then result.generated_answer.getD ""
  else "Error: " ++ result.error.getD "Unknown error"

/-- `get_answers_from_file(file_path, questions)`: run the questions and
extract one answer string per result, in order. -/
def get_answers_from_file (file_path : String) (questions : List String)
    (completed : List QResult) : List String :=
  let _ := file_path
  (process_questions_parallel questions completed).map answerString

/-- Whether `download_file` returned a temp path or raised a
`requests.RequestException`. -/
inductive DownloadOutcome where
  | ok (path : String)
  | requestExc (e : String)
deriving DecidableEq, Repr

/-- What the HTTP caller of this variant of `POST /hackrx/run` observes. -/
inductive HttpResponse where
  | ok (answers : List String)
  | httpError (statusCode : Nat) (detail : String)
deriving DecidableEq, Repr

/-- `run_hackrx(req)` of `src/handler/hackrx.py`: download, answer, reply
`{"answers": answers}`; a download failure is a 400.  The Discord webhook
calls swallow their own errors and do not affect the response. -/
def run_hackrx (download : DownloadOutcome) (questions : List String)
    (completed : List QResult) : HttpResponse :=
  match download with
  | .requestExc e => .httpError 400 ("Download failed: " ++ e)
  | .ok path => .ok (get_answers_from_file path questions completed)

/-- A result set containing both a successful answer and a per-question
error. -/
def mixedResults (results : List QResult) : Bool :=
  results.any (fun r => r.status == "success") && results.any (fun r => r.status == "error")

end Pipeline

end HackRX

/-! ## Generic lemmas: Python dicts and decimal renders -/

namespace HackRX

theorem pyGet_pyInsert {β : Type} (m : List (String × β)) (k k' : String) (v : β) :
    pyGet (pyInsert m k v) k' = if k = k' then some v else pyGet m k' := by
  induction m with
  | nil =>
    by_cases h : k = k'
    · simp [pyInsert, pyGet, h]
    · simp [pyInsert, pyGet, h]
  | cons kv rest ih =>
    obtain ⟨k0, v0⟩ := kv
    by_cases h0 : k0 = k
    · subst h0
      by_cases h : k0 = k'
      · subst h
        simp [pyInsert, pyGet]
      · simp [pyInsert, pyGet, h]
    · by_cases h : k0 = k'
      · subst h
        have hkk : ¬ k = k0 := fun hh => h0 hh.symm
        simp [pyInsert, pyGet, h0, hkk]
      · simp [pyInsert, pyGet, h0, h, ih]

theorem chVal_nil (a : Nat) : chVal a [] = a := rfl

theorem chVal_cons (a : Nat) (c : Char) (l : List Char) :
    chVal a (c :: l) = chVal (a * 10 + d2n c) l := rfl

theorem d2n_digitChar {m : Nat} (h : m < 10) : d2n (Nat.digitChar m) = m := by
  interval_cases m <;> rfl

theorem toDigitsCore_val : ∀ (fuel n : Nat) (ds : List Char), n < 10 ^ fuel →
    chVal 0 (Nat.toDigitsCore 10 fuel n ds) = chVal n ds := by
  intro fuel
  induction fuel with
  | zero =>
    intro n ds h
    simp at h
    subst h
    rfl
  | succ f ih =>
    intro n ds h
    rw [Nat.toDigitsCore]
    by_cases h10 : n / 10 = 0
    · simp only [h10, if_true]
      have hn : n < 10 := by omega
      rw [chVal_cons, d2n_digitChar (Nat.mod_lt _ (by norm_num))]
      have : n % 10 = n := Nat.mod_eq_of_lt hn
      rw [this, Nat.zero_mul, Nat.zero_add]
    · simp only [h10, if_false]
      have hlt : n / 10 < 10 ^ f := by
        rw [Nat.div_lt_iff_lt_mul (show 0 < 10 by norm_num)]
        calc n < 10 ^ (f + 1) := h
        _ = 10 ^ f * 10 := by rw [pow_succ]
      rw [ih _ _ hlt, chVal_cons, d2n_digitChar (Nat.mod_lt _ (by norm_num))]
      congr 1
      omega

theorem toDigits_val (n : Nat) : chVal 0 (Nat.toDigits 10 n) = n := by
  have hb : (1 : Nat) < 10 := by norm_num
  have h : n < 10 ^ (n + 1) := by
    calc n < 10 ^ n := Nat.lt_pow_self hb n
    _ ≤ 10 ^ (n + 1) := Nat.pow_le_pow_right (by norm_num) (Nat.le_succ n)
  rw [Nat.toDigits, toDigitsCore_val (n + 1) n [] h, chVal_nil]

theorem data_asString (l : List Char) : (List.asString l).data = l := rfl

theorem nat_repr_inj {m n : Nat} (h : Nat.repr m = Nat.repr n) : m = n := by
  have hd : (Nat.toDigits 10 m) = (Nat.toDigits 10 n) := by
    have := congrArg String.data h
    simpa [Nat.repr, data_asString] using this
  have := congrArg (chVal 0) hd
  rwa [toDigits_val, toDigits_val] at this

theorem toDigitsCore_digits : ∀ (fuel n : Nat) (ds : List Char),
    (∀ c ∈ ds, c.isDigit = true) → ∀ c ∈ Nat.toDigitsCore 10 fuel n ds, c.isDigit = true := by
  intro fuel
  induction fuel with
  | zero => intro n ds hds; exact hds
  | succ f ih =>
    intro n ds hds
    rw [Nat.toDigitsCore]
    have hdig : (Nat.digitChar (n % 10)).isDigit = true := by
      have : n % 10 < 10 := Nat.mod_lt _ (by norm_num)
      interval_cases h : (n % 10) <;> decide
    by_cases h10 : n / 10 = 0
    · simp only [h10, if_true]
      intro c hc
      rcases List.mem_cons.mp hc with h | h
      · subst h; exact hdig
      · exact hds c h
    · simp only [h10, if_false]
      apply ih
      intro c hc
      rcases List.mem_cons.mp hc with h | h
      · subst h; exact hdig
      · exact hds c h

theorem toDigitsCore_len : ∀ (fuel n : Nat) (ds : List Char),
    ds.length ≤ (Nat.toDigitsCore 10 fuel n ds).length := by
  intro fuel
  induction fuel with
  | zero => intro n ds; exact Nat.le_refl _
  | succ f ih =>
    intro n ds
    rw [Nat.toDigitsCore]
    by_cases h10 : n / 10 = 0
    · simp only [h10, if_true, List.length_cons]
      exact Nat.le_succ_of_le (Nat.le_refl _)
    · simp only [h10, if_false]
      calc ds.length ≤ (Nat.digitChar (n % 10) :: ds).length := Nat.le_succ_of_le (Nat.le_refl _)
      _ ≤ _ := ih (n / 10) _

theorem repr_data_digits (n : Nat) : ∀ c ∈ (Nat.repr n).data, c.isDigit = true := by
  intro c hc
  rw [Nat.repr, data_asString] at hc
  exact toDigitsCore_digits (n + 1) n [] (by intro c hc; cases hc) c hc

theorem toDigitsCore_succ_len (f n : Nat) (ds : List Char) :
    ds.length + 1 ≤ (Nat.toDigitsCore 10 (f + 1) n ds).length := by
  rw [Nat.toDigitsCore]
  by_cases h10 : n / 10 = 0
  · simp [h10]
  · simp only [h10, if_false]
    calc ds.length + 1 = (Nat.digitChar (n % 10) :: ds).length := by simp
    _ ≤ _ := toDigitsCore_len f (n / 10) _

theorem repr_data_ne_nil (n : Nat) : (Nat.repr n).data ≠ [] := by
  rw [Nat.repr, data_asString, Nat.toDigits]
  intro h
  have h1 := toDigitsCore_succ_len n n []
  rw [h] at h1
  simp at h1

theorem toString_int_ofNat (m : Nat) : toString (Int.ofNat m) = Nat.repr m := rfl

theorem toString_int_negSucc (m : Nat) :
    toString (Int.negSucc m) = "-" ++ Nat.repr (m + 1) := rfl

theorem data_append (s t : String) : (s ++ t).data = s.data ++ t.data := rfl

theorem int_toString_inj {i j : Int} (h : toString i = toString j) : i = j := by
  cases i with
  | ofNat m =>
    cases j with
    | ofNat k =>
      rw [toString_int_ofNat, toString_int_ofNat] at h
      exact congrArg Int.ofNat (nat_repr_inj h)
    | negSucc k =>
      rw [toString_int_ofNat, toString_int_negSucc] at h
      have hd := congrArg String.data h
      rw [data_append] at hd
      exfalso
      cases hm : (Nat.repr m).data with
      | nil => exact repr_data_ne_nil m hm
      | cons c rest =>
        have hc : c.isDigit = true :=
          repr_data_digits m c (by rw [hm]; exact List.mem_cons_self _ _)
        rw [hm] at hd
        have : c = '-' := by
          have : "-".data = ['-'] := rfl
          rw [this] at hd
          exact (List.cons.injEq _ _ _ _ ▸ hd).1
        rw [this] at hc
        simp [Char.isDigit] at hc
  | negSucc m =>
    cases j with
    | ofNat k =>
      rw [toString_int_negSucc, toString_int_ofNat] at h
      have hd := congrArg String.data h
      rw [data_append] at hd
      exfalso
      cases hm : (Nat.repr k).data with
      | nil => exact repr_data_ne_nil k hm
      | cons c rest =>
        have hc : c.isDigit = true :=
          repr_data_digits k c (by rw [hm]; exact List.mem_cons_self _ _)
        rw [hm] at hd
        have : c = '-' := by
          have h1 : "-".data = ['-'] := rfl
          rw [h1] at hd
          exact ((List.cons.injEq _ _ _ _ ▸ hd).1).symm
        rw [this] at hc
        simp [Char.isDigit] at hc
    | negSucc k =>
      rw [toString_int_negSucc, toString_int_negSucc] at h
      have hd := congrArg String.data h
      rw [data_append, data_append] at hd
      have h1 : "-".data = ['-'] := rfl
      rw [h1] at hd
      have h2 : (Nat.repr (m + 1)).data = (Nat.repr (k + 1)).data :=
        (List.cons.injEq _ _ _ _ ▸ hd).2
      have h3 : Nat.repr (m + 1) = Nat.repr (k + 1) := congrArg String.mk h2
      have h4 := nat_repr_inj h3
      have h5 : m = k := by omega
      rw [h5]

theorem int_toString_numCh (i : Int) : ∀ c ∈ (toString i).data, numCh c = true := by
  cases i with
  | ofNat m =>
    rw [toString_int_ofNat]
    intro c hc
    simp [numCh, repr_data_digits m c hc]
  | negSucc m =>
    rw [toString_int_negSucc]
    intro c hc
    rw [data_append] at hc
    rcases List.mem_append.mp hc with h | h
    · have h1 : "-".data = ['-'] := rfl
      rw [h1] at h
      simp at h
      subst h
      decide
    · simp [numCh, repr_data_digits (m + 1) c h]

theorem run_append_inj (Q : Char → Bool) : ∀ (l₁ l₂ r₁ r₂ : List Char),
    (∀ c ∈ l₁, Q c = true) → (∀ c ∈ l₂, Q c = true) →
    (∀ c, r₁.head? = some c → Q c = false) → (∀ c, r₂.head? = some c → Q c = false) →
    l₁ ++ r₁ = l₂ ++ r₂ → l₁ = l₂ ∧ r₁ = r₂ := by
  intro l₁
  induction l₁ with
  | nil =>
    intro l₂ r₁ r₂ _ hl₂ hr₁ _ heq
    cases l₂ with
    | nil => exact ⟨rfl, heq⟩
    | cons b t =>
      exfalso
      simp only [List.nil_append, List.cons_append] at heq
      have hb : Q b = true := hl₂ b (List.mem_cons_self _ _)
      have hh : r₁.head? = some b := by rw [heq]; rfl
      have := hr₁ b hh
      rw [hb] at this
      cases this
  | cons a t ih =>
    intro l₂ r₁ r₂ hl₁ hl₂ hr₁ hr₂ heq
    cases l₂ with
    | nil =>
      exfalso
      simp only [List.nil_append, List.cons_append] at heq
      have ha : Q a = true := hl₁ a (List.mem_cons_self _ _)
      have hh : r₂.head? = some a := by rw [← heq]; rfl
      have := hr₂ a hh
      rw [ha] at this
      cases this
    | cons b t₂ =>
      simp only [List.cons_append] at heq
      have hab : a = b := (List.cons.injEq _ _ _ _ ▸ heq).1
      have htl : t ++ r₁ = t₂ ++ r₂ := (List.cons.injEq _ _ _ _ ▸ heq).2
      have := ih t₂ r₁ r₂ (fun c hc => hl₁ c (List.mem_cons_of_mem _ hc))
        (fun c hc => hl₂ c (List.mem_cons_of_mem _ hc)) hr₁ hr₂ htl
      exact ⟨by rw [hab, this.1], this.2⟩

end HackRX

/-! ## Coordinator: helper lemmas -/

namespace HackRX.Coordinator

theorem run_hackrx_new (file_hash extension dir : String) (stored : StoredMeta)
    (stream : List BusMessage)
    (hfresh : pyGet (fbhOf stored) file_hash = none) :
    (run_hackrx file_hash extension dir stored stream).finalStored =
      save_metadata (RawMeta.mk (some (pyInsert (fbhOf stored) file_hash
        ⟨mkFilename (nextIdOf stored) extension⟩)) (some (nextIdOf stored + 1))) ∧
    (run_hackrx file_hash extension dir stored stream).events =
      [⟨"run_hackrx", file_hash, pathJoin dir (mkFilename (nextIdOf stored) extension)⟩] ∧
    savedFiles (run_hackrx file_hash extension dir stored stream).trace =
      [mkFilename (nextIdOf stored) extension] ∧
    publishOrWaitWhileLocked (run_hackrx file_hash extension dir stored stream).trace = false := by
  have hs : pyGet ((get_or_create_metadata stored).files_by_hash.getD []) file_hash = none :=
    hfresh
  have hn : (get_or_create_metadata stored).next_id.getD 1 = nextIdOf stored := rfl
  have hf : (get_or_create_metadata stored).files_by_hash.getD [] = fbhOf stored := rfl
  cases hw : wait_for_result file_hash 30 stream with
  | found p =>
    refine ⟨?_, ?_, ?_, ?_⟩ <;>
      simp [run_hackrx, hs, hfresh, new_file_path, hw, hn, hf, savedFiles,
        publishOrWaitWhileLocked, anyBusActionLocked, save_metadata]
  | timedOut =>
    refine ⟨?_, ?_, ?_, ?_⟩ <;>
      simp [run_hackrx, hs, hfresh, new_file_path, hw, hn, hf, savedFiles,
        publishOrWaitWhileLocked, anyBusActionLocked, save_metadata]
  | blocked =>
    refine ⟨?_, ?_, ?_, ?_⟩ <;>
      simp [run_hackrx, hs, hfresh, new_file_path, hw, hn, hf, savedFiles,
        publishOrWaitWhileLocked, anyBusActionLocked, save_metadata]

theorem run_hackrx_dup (file_hash extension dir : String) (stored : StoredMeta)
    (stream : List BusMessage) (entry : FileEntry)
    (hdup : pyGet (fbhOf stored) file_hash = some entry) :
    (run_hackrx file_hash extension dir stored stream).finalStored = stored ∧
    (run_hackrx file_hash extension dir stored stream).events =
      [⟨"run_hackrx", file_hash, pathJoin dir entry.generic_filename⟩] ∧
    savedFiles (run_hackrx file_hash extension dir stored stream).trace = [] ∧
    Action.saveMeta ∉ (run_hackrx file_hash extension dir stored stream).trace ∧
    publishOrWaitWhileLocked (run_hackrx file_hash extension dir stored stream).trace = true := by
  have hs : pyGet ((get_or_create_metadata stored).files_by_hash.getD []) file_hash =
      some entry := hdup
  cases hw : wait_for_result file_hash 30 stream with
  | found p =>
    refine ⟨?_, ?_, ?_, ?_, ?_⟩ <;>
      simp [run_hackrx, hs, hdup, duplicate_path, hw, savedFiles,
        publishOrWaitWhileLocked, anyBusActionLocked]
  | timedOut =>
    refine ⟨?_, ?_, ?_, ?_, ?_⟩ <;>
      simp [run_hackrx, hs, hdup, duplicate_path, hw, savedFiles,
        publishOrWaitWhileLocked, anyBusActionLocked]
  | blocked =>
    refine ⟨?_, ?_, ?_, ?_, ?_⟩ <;>
      simp [run_hackrx, hs, hdup, duplicate_path, hw, savedFiles,
        publishOrWaitWhileLocked, anyBusActionLocked]

end HackRX.Coordinator

/-! ## Coordinator: claim theorems -/

namespace HackRX.Coordinator

/-- C4: Loading the metadata ledger never fails: a missing file, invalid
JSON, or a legacy shape lacking `files_by_hash` all yield the fresh ledger
`{files_by_hash: {}, next_id: 1}` without raising, and a well-formed stored
ledger is returned as is. -/
theorem get_or_create_metadata_never_fails :
    get_or_create_metadata .missing = freshMeta ∧
    get_or_create_metadata .corrupt = freshMeta ∧
    (∀ m : RawMeta, m.files_by_hash = none →
      get_or_create_metadata (.stored m) = freshMeta) ∧
    (∀ m : RawMeta, m.files_by_hash.isSome = true →
      get_or_create_metadata (.stored m) = m) ∧
    freshMeta = RawMeta.mk (some []) (some 1) := by
  refine ⟨rfl, rfl, ?_, ?_, rfl⟩
  · intro m hm
    simp [get_or_create_metadata, hm]
  · intro m hm
    simp [get_or_create_metadata, hm]

/-- Witness for C4 at a legacy shape and at a well-formed ledger. -/
theorem get_or_create_metadata_never_fails_witness :
    get_or_create_metadata (.stored (RawMeta.mk none (some 7))) = freshMeta ∧
    get_or_create_metadata
        (.stored (RawMeta.mk (some [("aa", FileEntry.mk "document1.pdf")]) (some 2))) =
      RawMeta.mk (some [("aa", FileEntry.mk "document1.pdf")]) (some 2) :=
  ⟨get_or_create_metadata_never_fails.2.2.1 _ rfl,
   get_or_create_metadata_never_fails.2.2.2.1 _ rfl⟩

/-- C8: Round-trip: saving a well-formed ledger and loading it again yields
the original ledger. -/
theorem save_then_load_roundtrip (m : RawMeta) (h : m.files_by_hash.isSome = true) :
    get_or_create_metadata (save_metadata m) = m := by
  simp [save_metadata, get_or_create_metadata, h]

/-- Witness for C8 at a concrete ledger. -/
theorem save_then_load_roundtrip_witness :
    get_or_create_metadata
        (save_metadata (RawMeta.mk (some [("aa", FileEntry.mk "document3.txt")]) (some 4))) =
      RawMeta.mk (some [("aa", FileEntry.mk "document3.txt")]) (some 4) :=
  save_then_load_roundtrip _ rfl

/-- C1 (code bug): when `wait_for_result` raises its 504 timeout, the
blanket `except Exception` handler of `run_hackrx` catches the
`HTTPException` and re-raises it as a 500 internal error, so the caller
sees 500, not the gateway-timeout status. -/
theorem timeout_surfaced_as_internal_error :
    wait_for_result "aa" 30
        [BusMessage.mk "message" 31 (.payload ⟨some "other", some "zz", none⟩)] =
      .timedOut ∧
    (run_hackrx "aa" "" "downloads" (.stored freshMeta)
        [BusMessage.mk "message" 31 (.payload ⟨some "other", some "zz", none⟩)]).http =
      .httpError 500
        "An internal error occurred: 504: Timed out waiting for external file result." := by
  constructor
  · decide
  · decide

/-- C2 (counterexample): on a stream that never produces another event the
waiter blocks forever instead of timing out. -/
theorem wait_for_result_blocks_on_silent_stream :
    wait_for_result "aa" 30 [] = .blocked := rfl

/-- C2 (amended): the waiter checks the clock only when a `"message"`-type
item arrives.  On a stream with no matching result event it times out
exactly when some `"message"`-type item is handled after the deadline;
when every such item arrives within the deadline it blocks forever. -/
theorem wait_for_result_timeout_iff_late (file_hash : String) (timeout : Nat)
    (stream : List BusMessage)
    (hnomatch : ∀ msg ∈ stream, isMatch file_hash msg = false) :
    ((∃ msg ∈ stream, msg.mtype = "message" ∧ msg.arrival > timeout) →
      wait_for_result file_hash timeout stream = .timedOut) ∧
    ((∀ msg ∈ stream, msg.mtype = "message" → msg.arrival ≤ timeout) →
      wait_for_result file_hash timeout stream = .blocked) := by
  induction stream with
  | nil =>
    constructor
    · rintro ⟨msg, hmem, _⟩
      cases hmem
    · intro _
      rfl
  | cons msg rest ih =>
    have hnr : ∀ m ∈ rest, isMatch file_hash m = false := fun m hm =>
      hnomatch m (List.mem_cons_of_mem _ hm)
    have ihr := ih hnr
    by_cases hm : msg.mtype = "message"
    · cases hd : msg.data with
      | malformed =>
        by_cases hl : msg.arrival > timeout
        · constructor
          · intro _
            simp [wait_for_result, hm, hd, hl]
          · intro hall
            exfalso
            have := hall msg (List.mem_cons_self _ _) hm
            omega
        · have hw : wait_for_result file_hash timeout (msg :: rest) =
              wait_for_result file_hash timeout rest := by
            simp [wait_for_result, hm, hd, hl]
          constructor
          · rintro ⟨m, hmem, hmt, har⟩
            rcases List.mem_cons.mp hmem with h | h
            · subst h
              omega
            · rw [hw]
              exact ihr.1 ⟨m, h, hmt, har⟩
          · intro hall
            rw [hw]
            exact ihr.2 fun m hmem hmt => hall m (List.mem_cons_of_mem _ hmem) hmt
      | payload p =>
        have hmf : ¬(p.event_type = some "result" ∧ p.filehash = some file_hash) := by
          intro hcon
          have hmt : isMatch file_hash msg = true := by
            simp [isMatch, hd, hm, hcon.1, hcon.2]
          rw [hnomatch msg (List.mem_cons_self _ _)] at hmt
          cases hmt
        by_cases hl : msg.arrival > timeout
        · constructor
          · intro _
            simp [wait_for_result, hm, hd, hmf, hl]
          · intro hall
            exfalso
            have := hall msg (List.mem_cons_self _ _) hm
            omega
        · have hw : wait_for_result file_hash timeout (msg :: rest) =
              wait_for_result file_hash timeout rest := by
            simp [wait_for_result, hm, hd, hmf, hl]
          constructor
          · rintro ⟨m, hmem, hmt, har⟩
            rcases List.mem_cons.mp hmem with h | h
            · subst h
              omega
            · rw [hw]
              exact ihr.1 ⟨m, h, hmt, har⟩
          · intro hall
            rw [hw]
            exact ihr.2 fun m hmem hmt => hall m (List.mem_cons_of_mem _ hmem) hmt
    · have hw : wait_for_result file_hash timeout (msg :: rest) =
          wait_for_result file_hash timeout rest := by
        simp [wait_for_result, hm]
      constructor
      · rintro ⟨m, hmem, hmt, har⟩
        rcases List.mem_cons.mp hmem with h | h
        · subst h
          exact absurd hmt hm
        · rw [hw]
          exact ihr.1 ⟨m, h, hmt, har⟩
      · intro hall
        rw [hw]
        exact ihr.2 fun m hmem hmt => hall m (List.mem_cons_of_mem _ hmem) hmt

/-- Witness for the amended C2: a late non-matching message triggers the
timeout; a stream whose only message is early leaves the waiter blocked. -/
theorem wait_for_result_timeout_iff_late_witness :
    wait_for_result "aa" 30
        [BusMessage.mk "message" 31 (.payload ⟨some "other", some "zz", none⟩)] =
      .timedOut ∧
    wait_for_result "aa" 30 [BusMessage.mk "message" 5 .malformed] = .blocked :=
  ⟨(wait_for_result_timeout_iff_late "aa" 30 _ (by decide)).1
      ⟨_, List.mem_cons_self _ _, rfl, by decide⟩,
   (wait_for_result_timeout_iff_late "aa" 30 _ (by decide)).2 (by decide)⟩

/-- C5: first request against an empty ledger with no extension hint:
the file is stored as `document1.pdf`, the saved ledger maps the hash to
that name with `next_id = 2`, and exactly one work event is published,
carrying the hash and the new canonical path. -/
theorem new_file_first_request (file_hash dir : String) (stream : List BusMessage) :
    savedFiles (run_hackrx file_hash "" dir (.stored freshMeta) stream).trace =
      ["document1.pdf"] ∧
    (run_hackrx file_hash "" dir (.stored freshMeta) stream).finalStored =
      save_metadata (RawMeta.mk (some [(file_hash, FileEntry.mk "document1.pdf")]) (some 2)) ∧
    (run_hackrx file_hash "" dir (.stored freshMeta) stream).events =
      [FileEvent.mk "run_hackrx" file_hash (pathJoin dir "document1.pdf")] := by
  have hfresh : pyGet (fbhOf (.stored freshMeta)) file_hash = none := rfl
  have h := run_hackrx_new file_hash "" dir (.stored freshMeta) stream hfresh
  refine ⟨?_, ?_, ?_⟩
  · rw [h.2.2.1]
    rfl
  · rw [h.1]
    rfl
  · rw [h.2.1]
    rfl

/-- C6: a duplicate-content request leaves the durable ledger untouched,
moves no file into the store, does not save metadata, and still publishes
exactly one work event referencing the existing canonical path. -/
theorem duplicate_request_leaves_ledger_unchanged (file_hash extension dir : String)
    (stored : StoredMeta) (stream : List BusMessage) (entry : FileEntry)
    (hdup : pyGet (fbhOf stored) file_hash = some entry) :
    (run_hackrx file_hash extension dir stored stream).finalStored = stored ∧
    savedFiles (run_hackrx file_hash extension dir stored stream).trace = [] ∧
    Action.saveMeta ∉ (run_hackrx file_hash extension dir stored stream).trace ∧
    (run_hackrx file_hash extension dir stored stream).events =
      [FileEvent.mk "run_hackrx" file_hash (pathJoin dir entry.generic_filename)] := by
  have h := run_hackrx_dup file_hash extension dir stored stream entry hdup
  exact ⟨h.1, h.2.2.1, h.2.2.2.1, h.2.1⟩

/-- Witness for C6 at a concrete one-entry ledger. -/
theorem duplicate_request_leaves_ledger_unchanged_witness :
    (run_hackrx "aa" "" "downloads"
        (.stored (RawMeta.mk (some [("aa", FileEntry.mk "document1.pdf")]) (some 2)))
        []).finalStored =
      .stored (RawMeta.mk (some [("aa", FileEntry.mk "document1.pdf")]) (some 2)) ∧
    savedFiles (run_hackrx "aa" "" "downloads"
        (.stored (RawMeta.mk (some [("aa", FileEntry.mk "document1.pdf")]) (some 2)))
        []).trace = [] ∧
    Action.saveMeta ∉ (run_hackrx "aa" "" "downloads"
        (.stored (RawMeta.mk (some [("aa", FileEntry.mk "document1.pdf")]) (some 2)))
        []).trace ∧
    (run_hackrx "aa" "" "downloads"
        (.stored (RawMeta.mk (some [("aa", FileEntry.mk "document1.pdf")]) (some 2)))
        []).events =
      [FileEvent.mk "run_hackrx" "aa" (pathJoin "downloads" "document1.pdf")] :=
  duplicate_request_leaves_ledger_unchanged "aa" "" "downloads" _ []
    (FileEntry.mk "document1.pdf") rfl

/-- C7 (counterexample): on the duplicate path the publish and the result
wait happen inside the `with file_lock:` block. -/
theorem duplicate_path_publishes_under_lock :
    publishOrWaitWhileLocked (run_hackrx "aa" "" "downloads"
        (.stored (RawMeta.mk (some [("aa", FileEntry.mk "document1.pdf")]) (some 2)))
        []).trace = true := by
  decide

/-- C7 (amended): it is the new-content path that publishes and waits
after releasing the ledger lock; the duplicate path publishes and waits
while holding it. -/
theorem critical_section_discipline :
    (∀ (file_hash extension dir : String) (stored : StoredMeta)
        (stream : List BusMessage) (entry : FileEntry),
      pyGet (fbhOf stored) file_hash = some entry →
      publishOrWaitWhileLocked
        (run_hackrx file_hash extension dir stored stream).trace = true) ∧
    (∀ (file_hash extension dir : String) (stored : StoredMeta)
        (stream : List BusMessage),
      pyGet (fbhOf stored) file_hash = none →
      publishOrWaitWhileLocked
        (run_hackrx file_hash extension dir stored stream).trace = false) :=
  ⟨fun fh ext dir st s e h => (run_hackrx_dup fh ext dir st s e h).2.2.2.2,
   fun fh ext dir st s h => (run_hackrx_new fh ext dir st s h).2.2.2⟩

/-- Witness for the amended C7 on both paths. -/
theorem critical_section_discipline_witness :
    publishOrWaitWhileLocked (run_hackrx "bb" "" "downloads"
        (.stored (RawMeta.mk (some [("aa", FileEntry.mk "document1.pdf")]) (some 2)))
        []).trace = false ∧
    publishOrWaitWhileLocked (run_hackrx "cc" ".txt" "downloads"
        (.stored (RawMeta.mk (some [("cc", FileEntry.mk "document2.txt")]) (some 3)))
        []).trace = true :=
  ⟨critical_section_discipline.2 "bb" "" "downloads" _ [] rfl,
   critical_section_discipline.1 "cc" ".txt" "downloads" _ []
     (FileEntry.mk "document2.txt") rfl⟩

end HackRX.Coordinator

/-! ## Coordinator: filename uniqueness across serialized ingestions (C3) -/

namespace HackRX.Coordinator

theorem extOrPdf_head (e : String) (he : extDotOk e) :
    (extOrPdf e).data.head? = some '.' := by
  by_cases hne : e = ""
  · subst hne
    rfl
  · rcases he with h | h
    · exact absurd h hne
    · rw [extOrPdf, if_neg hne]
      exact h

theorem mkFilename_inj (i₁ i₂ : Int) (e₁ e₂ : String) (h₁ : extDotOk e₁) (h₂ : extDotOk e₂)
    (heq : mkFilename i₁ e₁ = mkFilename i₂ e₂) : i₁ = i₂ := by
  have hd := congrArg String.data heq
  simp only [mkFilename, data_append] at hd
  rw [List.append_assoc, List.append_assoc] at hd
  have hd2 : (toString i₁).data ++ (extOrPdf e₁).data =
      (toString i₂).data ++ (extOrPdf e₂).data := List.append_cancel_left hd
  have hh₁ : ∀ c, (extOrPdf e₁).data.head? = some c → numCh c = false := by
    intro c hc
    rw [extOrPdf_head e₁ h₁] at hc
    have hcc : c = '.' := (Option.some.inj hc).symm
    subst hcc
    decide
  have hh₂ : ∀ c, (extOrPdf e₂).data.head? = some c → numCh c = false := by
    intro c hc
    rw [extOrPdf_head e₂ h₂] at hc
    have hcc : c = '.' := (Option.some.inj hc).symm
    subst hcc
    decide
  have hsplit := run_append_inj numCh _ _ _ _
    (int_toString_numCh i₁) (int_toString_numCh i₂) hh₁ hh₂ hd2
  have hts : toString i₁ = toString i₂ := congrArg String.mk hsplit.1
  exact int_toString_inj hts

theorem idsFrom_length (reqs : List (String × String)) : ∀ id : Int,
    (idsFrom id reqs).length = reqs.length := by
  induction reqs with
  | nil => intro id; rfl
  | cons p rest ih =>
    intro id
    obtain ⟨h, e⟩ := p
    simp [idsFrom, ih (id + 1)]

theorem mem_idsFrom (reqs : List (String × String)) (hext : ∀ p ∈ reqs, extDotOk p.2) :
    ∀ (id : Int) (n : String), n ∈ idsFrom id reqs →
    ∃ k e, extDotOk e ∧ id ≤ k ∧ n = mkFilename k e := by
  induction reqs with
  | nil =>
    intro id n hn
    simp [idsFrom] at hn
  | cons p rest ih =>
    obtain ⟨h, e⟩ := p
    intro id n hn
    simp only [idsFrom, List.mem_cons] at hn
    rcases hn with hn | hn
    · exact ⟨id, e, hext (h, e) (List.mem_cons_self _ _), le_refl _, hn⟩
    · obtain ⟨k, e', hd, hle, heq⟩ :=
        ih (fun q hq => hext q (List.mem_cons_of_mem _ hq)) (id + 1) n hn
      exact ⟨k, e', hd, by omega, heq⟩

theorem idsFrom_nodup (reqs : List (String × String)) (hext : ∀ p ∈ reqs, extDotOk p.2) :
    ∀ id : Int, (idsFrom id reqs).Nodup := by
  induction reqs with
  | nil => intro id; simp [idsFrom]
  | cons p rest ih =>
    obtain ⟨h, e⟩ := p
    intro id
    have hext' : ∀ q ∈ rest, extDotOk q.2 := fun q hq => hext q (List.mem_cons_of_mem _ hq)
    simp only [idsFrom]
    refine List.nodup_cons.mpr ⟨?_, ih hext' (id + 1)⟩
    intro hmem
    obtain ⟨k, e', hd', hle, heq⟩ := mem_idsFrom rest hext' (id + 1) _ hmem
    have := mkFilename_inj id k e e' (hext (h, e) (List.mem_cons_self _ _)) hd' heq
    omega

theorem runSeq_spec (dir : String) (reqs : List (String × String)) : ∀ stored : StoredMeta,
    (reqs.map Prod.fst).Nodup →
    (∀ p ∈ reqs, pyGet (fbhOf stored) p.1 = none) →
    (runSeq dir stored reqs).2 = idsFrom (nextIdOf stored) reqs ∧
    nextIdOf (runSeq dir stored reqs).1 = nextIdOf stored + reqs.length := by
  induction reqs with
  | nil =>
    intro stored _ _
    exact ⟨rfl, by simp [runSeq]⟩
  | cons p rest ih =>
    intro stored hnd hfresh
    obtain ⟨h, e⟩ := p
    have hnd' : (h :: rest.map Prod.fst).Nodup := by simpa using hnd
    have hf0 : pyGet (fbhOf stored) h = none := hfresh (h, e) (List.mem_cons_self _ _)
    have hnew := run_hackrx_new h e dir stored [] hf0
    have hfbh1 : fbhOf (run_hackrx h e dir stored []).finalStored =
        pyInsert (fbhOf stored) h ⟨mkFilename (nextIdOf stored) e⟩ := by
      rw [hnew.1]
      simp [fbhOf, save_metadata, get_or_create_metadata]
    have hnid1 : nextIdOf (run_hackrx h e dir stored []).finalStored =
        nextIdOf stored + 1 := by
      rw [hnew.1]
      simp [nextIdOf, save_metadata, get_or_create_metadata]
    have hfresh1 : ∀ q ∈ rest, pyGet (fbhOf (run_hackrx h e dir stored []).finalStored) q.1 =
        none := by
      intro q hq
      rw [hfbh1, pyGet_pyInsert]
      have hne : ¬ h = q.1 := by
        intro hEq
        refine (List.nodup_cons.mp hnd').1 ?_
        rw [hEq]
        exact List.mem_map_of_mem Prod.fst hq
      rw [if_neg hne]
      exact hfresh q (List.mem_cons_of_mem _ hq)
    have hrec := ih (run_hackrx h e dir stored []).finalStored
      (List.nodup_cons.mp hnd').2 hfresh1
    constructor
    · simp only [runSeq]
      rw [hnew.2.2.1, hrec.1, hnid1]
      simp [idsFrom]
    · simp only [runSeq]
      rw [hrec.2, hnid1]
      simp only [List.length_cons]
      push_cast
      ring

end HackRX.Coordinator

namespace HackRX.Coordinator

/-- C3: across any serialized sequence of new-content ingestions on
pairwise-distinct hashes not yet in the ledger, one canonical filename is
created per request, the filenames are pairwise distinct, and the ledger
counter `next_id` advances by exactly the number of ingestions. -/
theorem serialized_new_ingestions (dir : String) (stored : StoredMeta)
    (reqs : List (String × String))
    (hnd : (reqs.map Prod.fst).Nodup)
    (hfresh : ∀ p ∈ reqs, pyGet (fbhOf stored) p.1 = none)
    (hext : ∀ p ∈ reqs, extDotOk p.2) :
    (runSeq dir stored reqs).2.length = reqs.length ∧
    (runSeq dir stored reqs).2.Nodup ∧
    nextIdOf (runSeq dir stored reqs).1 = nextIdOf stored + reqs.length := by
  obtain ⟨hnames, hnid⟩ := runSeq_spec dir reqs stored hnd hfresh
  refine ⟨?_, ?_, hnid⟩
  · rw [hnames, idsFrom_length]
  · rw [hnames]
    exact idsFrom_nodup reqs hext (nextIdOf stored)

/-- Witness for C3: two ingestions on distinct hashes against an absent
ledger create two distinct filenames and advance `next_id` from 1 to 3. -/
theorem serialized_new_ingestions_witness :
    (runSeq "downloads" .missing [("aa", ""), ("bb", ".txt")]).2.length = 2 ∧
    (runSeq "downloads" .missing [("aa", ""), ("bb", ".txt")]).2.Nodup ∧
    nextIdOf (runSeq "downloads" .missing [("aa", ""), ("bb", ".txt")]).1 = 3 := by
  have h := serialized_new_ingestions "downloads" .missing [("aa", ""), ("bb", ".txt")]
    (by decide) (by decide) ?_
  · refine ⟨?_, h.2.1, ?_⟩
    · rw [h.1]
      rfl
    · rw [h.2.2]
      decide
  · intro p hp
    rcases List.mem_cons.mp hp with hc | hc
    · subst hc
      exact Or.inl rfl
    · rcases List.mem_cons.mp hc with hc2 | hc2
      · subst hc2
        exact Or.inr rfl
      · cases hc2

end HackRX.Coordinator

/-! ## Pipeline: answer ordering (C9) and partial results (C10) -/

namespace HackRX

theorem lookupSnd_eq_none (pairs : List (Nat × String)) (k : String)
    (h : k ∉ pairs.map Prod.snd) : lookupSnd pairs k = none := by
  induction pairs with
  | nil => rfl
  | cons p rest ih =>
    obtain ⟨i, q⟩ := p
    simp only [List.map_cons, List.mem_cons] at h
    push_neg at h
    simp only [lookupSnd]
    rw [if_neg fun hh => h.1 hh.symm]
    exact ih h.2

theorem foldl_pyInsert_get (pairs : List (Nat × String)) : ∀ (m₀ : List (String × Nat))
    (k : String), (pairs.map Prod.snd).Nodup →
    pyGet (pairs.foldl (fun m p => pyInsert m p.2 p.1) m₀) k =
      (lookupSnd pairs k).elim (pyGet m₀ k) some := by
  induction pairs with
  | nil => intro m₀ k _; rfl
  | cons p rest ih =>
    intro m₀ k hnd
    obtain ⟨i, q⟩ := p
    simp only [List.map_cons] at hnd
    have hqnotin : q ∉ rest.map Prod.snd := (List.nodup_cons.mp hnd).1
    have hnd' := (List.nodup_cons.mp hnd).2
    simp only [List.foldl_cons, lookupSnd]
    rw [ih (pyInsert m₀ q i) k hnd']
    by_cases hqk : q = k
    · subst hqk
      rw [lookupSnd_eq_none rest q hqnotin]
      simp only [Option.elim, if_pos rfl]
      rw [pyGet_pyInsert]
      simp
    · rw [if_neg hqk]
      cases hl : lookupSnd rest k with
      | none =>
        simp only [Option.elim]
        rw [pyGet_pyInsert, if_neg hqk]
      | some v =>
        simp only [Option.elim]

theorem lookupSnd_enumFrom (qs : List String) : qs.Nodup → ∀ (k i : Nat)
    (h : i < qs.length), lookupSnd (List.enumFrom k qs) (qs.get ⟨i, h⟩) = some (k + i) := by
  induction qs with
  | nil =>
    intro _ k i h
    simp at h
  | cons q rest ih =>
    intro hnd k i h
    cases i with
    | zero =>
      simp [List.enumFrom, lookupSnd, List.get]
    | succ i =>
      have hq : q ∉ rest := (List.nodup_cons.mp hnd).1
      have hget : (q :: rest).get ⟨i + 1, h⟩ = rest.get ⟨i, by simpa using h⟩ := rfl
      rw [hget]
      simp only [List.enumFrom, lookupSnd]
      have hne : ¬ q = rest.get ⟨i, by simpa using h⟩ := by
        intro hEq
        exact hq (hEq ▸ List.get_mem rest _ _)
      rw [if_neg hne, ih (List.nodup_cons.mp hnd).2 (k + 1) i (by simpa using h)]
      congr 1
      omega

end HackRX

namespace HackRX.Pipeline

theorem sortKey_get (questions : List String) (hnd : questions.Nodup) (i : Nat)
    (h : i < questions.length) (r : QResult)
    (hr : r.question = questions.get ⟨i, h⟩) :
    sortKey questions r = i := by
  simp only [sortKey, question_to_index, List.enum]
  rw [hr, foldl_pyInsert_get]
  · rw [lookupSnd_enumFrom questions hnd 0 i h]
    simp [Option.elim]
  · rw [List.enumFrom_map_snd]
    exact hnd

theorem map_sortKey_canonical (questions : List String) (hnd : questions.Nodup)
    (rf : String → QResult) (hq : ∀ q ∈ questions, (rf q).question = q) :
    (questions.map rf).map (sortKey questions) = List.range questions.length := by
  apply List.ext_get
  · simp
  · intro n h1 h2
    rw [List.get_map, List.get_map]
    have hn : n < questions.length := by simpa using h2
    have hmem := List.get_mem questions n (by simpa using hn)
    rw [sortKey_get questions hnd n hn (rf (questions.get ⟨n, by simpa using hn⟩))
      (hq _ (List.get_mem questions _ _))]
    rw [List.get_eq_getElem, List.getElem_range]

theorem eq_of_perm_of_map_eq {α β : Type} (key : α → β) : ∀ (l₁ l₂ : List α),
    l₂.Perm l₁ → l₂.map key = l₁.map key → (l₁.map key).Nodup → l₂ = l₁ := by
  intro l₁
  induction l₁ with
  | nil =>
    intro l₂ hp _ _
    exact List.Perm.eq_nil hp
  | cons a t ih =>
    intro l₂ hp hmap hnd
    cases l₂ with
    | nil =>
      exfalso
      have h0 := List.Perm.eq_nil hp.symm
      cases h0
    | cons b t₂ =>
      simp only [List.map_cons] at hmap hnd
      have hkey : key b = key a := (List.cons.injEq _ _ _ _ ▸ hmap).1
      have hmapt : t₂.map key = t.map key := (List.cons.injEq _ _ _ _ ▸ hmap).2
      have hb : b ∈ a :: t := hp.subset (List.mem_cons_self _ _)
      rcases List.mem_cons.mp hb with hba | hbt
      · subst hba
        rw [ih t₂ hp.cons_inv hmapt (List.nodup_cons.mp hnd).2]
      · exfalso
        have hkm : key b ∈ t.map key := List.mem_map_of_mem key hbt
        rw [hkey] at hkm
        exact (List.nodup_cons.mp hnd).1 hkm

end HackRX.Pipeline

namespace HackRX.Pipeline

/-- C9: for distinct questions, the parallel processor returns exactly one
result per question, re-sorted into the original question order, and the
handler extracts one answer per question in that same order. -/
theorem answers_in_question_order (file_path : String) (questions : List String)
    (rf : String → QResult) (completed : List QResult)
    (hnd : questions.Nodup)
    (hq : ∀ q ∈ questions, (rf q).question = q)
    (hperm : completed.Perm (questions.map rf)) :
    process_questions_parallel questions completed = questions.map rf ∧
    get_answers_from_file file_path questions completed =
      questions.map (fun q => answerString (rf q)) := by
  have hmain : process_questions_parallel questions completed = questions.map rf := by
    by_cases hempty : questions.isEmpty = true
    · have hq0 : questions = [] := by
        cases questions with
        | nil => rfl
        | cons a t => simp at hempty
      subst hq0
      have hc0 : completed = [] := List.Perm.eq_nil (by simpa using hperm)
      simp [process_questions_parallel, hc0]
    · unfold process_questions_parallel
      rw [if_neg hempty]
      have htrans : ∀ a b c : QResult,
          decide (sortKey questions a ≤ sortKey questions b) = true →
          decide (sortKey questions b ≤ sortKey questions c) = true →
          decide (sortKey questions a ≤ sortKey questions c) = true := by
        intro a b c h1 h2
        simp only [decide_eq_true_eq] at h1 h2 ⊢
        omega
      have htotal : ∀ a b : QResult,
          (decide (sortKey questions a ≤ sortKey questions b) ||
            decide (sortKey questions b ≤ sortKey questions a)) = true := by
        intro a b
        simp only [Bool.or_eq_true, decide_eq_true_eq]
        omega
      have hsorted := List.sorted_mergeSort htrans htotal completed
      have hperm2 : (completed.mergeSort
          (fun a b => decide (sortKey questions a ≤ sortKey questions b))).Perm
          (questions.map rf) := (List.mergeSort_perm completed _).trans hperm
      have hckeys := map_sortKey_canonical questions hnd rf hq
      have hpk : ((completed.mergeSort
          (fun a b => decide (sortKey questions a ≤ sortKey questions b))).map
            (sortKey questions)).Perm (List.range questions.length) := by
        rw [← hckeys]
        exact hperm2.map _
      have hsk : List.Sorted (· ≤ ·) ((completed.mergeSort
          (fun a b => decide (sortKey questions a ≤ sortKey questions b))).map
            (sortKey questions)) := by
        apply List.pairwise_map.mpr
        apply List.Pairwise.imp ?_ hsorted
        intro a b hab
        exact of_decide_eq_true hab
      have hkeq := List.eq_of_perm_of_sorted hpk hsk (List.sorted_le_range _)
      apply eq_of_perm_of_map_eq (sortKey questions) (questions.map rf) _ hperm2
      · rw [hkeq, hckeys]
      · rw [hckeys]
        exact List.nodup_range _
  refine ⟨hmain, ?_⟩
  show (process_questions_parallel questions completed).map answerString = _
  rw [hmain, List.map_map]
  rfl

/-- Witness for C9: two distinct questions completing in reverse order are
returned in the original order, with answers in that order. -/
theorem answers_in_question_order_witness :
    process_questions_parallel ["q1", "q2"]
        [QResult.mk "q2" "success" (some "ans q2") none,
         QResult.mk "q1" "success" (some "ans q1") none] =
      ["q1", "q2"].map (fun q => QResult.mk q "success" (some ("ans " ++ q)) none) ∧
    get_answers_from_file "/tmp/doc.pdf" ["q1", "q2"]
        [QResult.mk "q2" "success" (some "ans q2") none,
         QResult.mk "q1" "success" (some "ans q1") none] =
      ["q1", "q2"].map
        (fun q => answerString (QResult.mk q "success" (some ("ans " ++ q)) none)) :=
  answers_in_question_order "/tmp/doc.pdf" ["q1", "q2"]
    (fun q => QResult.mk q "success" (some ("ans " ++ q)) none) _
    (by decide) (by decide)
    (List.Perm.swap (QResult.mk "q1" "success" (some "ans q1") none)
      (QResult.mk "q2" "success" (some "ans q2") none) [])

unseal List.merge List.mergeSort in
/-- C10 (counterexample): one question succeeds, the other fails, and the
handler returns a 200 success payload mixing the real answer with a
per-question error placeholder. -/
theorem success_response_with_error_placeholder :
    mixedResults (process_questions_parallel ["q1", "q2"]
        [QResult.mk "q1" "success" (some "Answer one") none,
         QResult.mk "q2" "error" none (some "boom")]) = true ∧
    run_hackrx (.ok "/tmp/doc.pdf") ["q1", "q2"]
        [QResult.mk "q1" "success" (some "Answer one") none,
         QResult.mk "q2" "error" none (some "boom")] =
      .ok ["Answer one", "Error: boom"] := by
  constructor
  · decide
  · decide

/-- C10 (amended): whenever the per-question results mix successes and
errors, the handler still replies with a structured 200 success payload in
which failed questions appear as `"Error: ..."` placeholder strings next
to real answers. -/
theorem success_payload_mixes_error_placeholders (file_path : String)
    (questions : List String) (completed : List QResult)
    (hs : (process_questions_parallel questions completed).any
        (fun r => r.status == "success") = true)
    (he : (process_questions_parallel questions completed).any
        (fun r => r.status == "error") = true) :
    mixedResults (process_questions_parallel questions completed) = true ∧
    run_hackrx (.ok file_path) questions completed =
      .ok ((process_questions_parallel questions completed).map answerString) ∧
    (∃ r ∈ process_questions_parallel questions completed, r.status = "error" ∧
      answerString r = "Error: " ++ r.error.getD "Unknown error" ∧
      ("Error: " ++ r.error.getD "Unknown error") ∈
        (process_questions_parallel questions completed).map answerString) ∧
    (∃ r ∈ process_questions_parallel questions completed, r.status = "success" ∧
      answerString r = r.generated_answer.getD "") := by
  refine ⟨?_, rfl, ?_, ?_⟩
  · simp [mixedResults, hs, he]
  · rcases List.any_eq_true.mp he with ⟨r, hrmem, hrp⟩
    have hst : r.status = "error" := by simpa using hrp
    have hans : answerString r = "Error: " ++ r.error.getD "Unknown error" := by
      simp only [answerString]
      rw [if_neg]
      rw [hst]
      decide
    exact ⟨r, hrmem, hst, hans, by
      rw [← hans]
      exact List.mem_map_of_mem answerString hrmem⟩
  · rcases List.any_eq_true.mp hs with ⟨r, hrmem, hrp⟩
    have hst : r.status = "success" := by simpa using hrp
    have hans : answerString r = r.generated_answer.getD "" := by
      simp only [answerString]
      rw [if_pos hst]
    exact ⟨r, hrmem, hst, hans⟩

unseal List.merge List.mergeSort in
/-- Witness for the amended C10 at a concrete mixed outcome. -/
theorem success_payload_mixes_error_placeholders_witness :
    mixedResults (process_questions_parallel ["qa", "qb"]
        [QResult.mk "qa" "success" (some "A1") none,
         QResult.mk "qb" "error" none (some "oops")]) = true ∧
    run_hackrx (.ok "/tmp/f.pdf") ["qa", "qb"]
        [QResult.mk "qa" "success" (some "A1") none,
         QResult.mk "qb" "error" none (some "oops")] =
      .ok ((process_questions_parallel ["qa", "qb"]
        [QResult.mk "qa" "success" (some "A1") none,
         QResult.mk "qb" "error" none (some "oops")]).map answerString) ∧
    (∃ r ∈ process_questions_parallel ["qa", "qb"]
        [QResult.mk "qa" "success" (some "A1") none,
         QResult.mk "qb" "error" none (some "oops")], r.status = "error" ∧
      answerString r = "Error: " ++ r.error.getD "Unknown error" ∧
      ("Error: " ++ r.error.getD "Unknown error") ∈
        (process_questions_parallel ["qa", "qb"]
          [QResult.mk "qa" "success" (some "A1") none,
           QResult.mk "qb" "error" none (some "oops")]).map answerString) ∧
    (∃ r ∈ process_questions_parallel ["qa", "qb"]
        [QResult.mk "qa" "success" (some "A1") none,
         QResult.mk "qb" "error" none (some "oops")], r.status = "success" ∧
      answerString r = r.generated_answer.getD "") :=
  success_payload_mixes_error_placeholders "/tmp/f.pdf" ["qa", "qb"]
    [QResult.mk "qa" "success" (some "A1") none,
     QResult.mk "qb" "error" none (some "oops")] (by decide) (by decide)

end HackRX.Pipeline
